import Mathlib

/-!
# Verification of the memsearch incremental synchronization core

A shallow embedding of the `memsearch` repository's core logic:

* `batched_embed` (src/memsearch/embeddings/utils.py) — the batching dispatcher;
* the Milvus store wrapper's pure bookkeeping semantics
  (src/memsearch/store.py) — upsert / delete / query by source, modelled as a
  finite list of records keyed by `chunk_hash`;
* `MemSearch._index_file`, `MemSearch._embed_and_store`, `MemSearch.index`
  (src/memsearch/core.py) — the per-file diff-and-reconcile procedure and the
  corpus-level pass, instrumented with an explicit trace of store operations
  and of the argument lists passed to the embedding backend;
* `MemSearch.search` (src/memsearch/core.py) with Python keyword-argument
  binding against the signature of `MilvusStore.search`;
* the debounced watcher's per-path timer state machine
  (src/memsearch/watcher.py), with discrete absolute time.

The chunker module (`chunker.py`) is not among the provided sources; the chunk
record type and the chunk-identity function are modelled from the spec where
noted, and chunk lists are otherwise taken as parameters.
-/

deriving instance DecidableEq for Except

/-- A vector returned by an embedding backend.  The numeric contents of
embeddings are irrelevant to every property proved here, so entries are
integers rather than floats. -/
abbrev Vec := List Int

/-- A chunk as produced by the chunker and consumed by
`MemSearch._index_file` (core.py uses the fields `source`, `content`,
`heading`, `heading_level`, `start_line`, `end_line`, `content_hash`).
The constructor field list matches the `Chunk` dataclass as exercised by
tests/test_embed_batching.py. -/
structure Chunk where
  source : String
  content : String
  heading : String
  heading_level : Nat
  start_line : Nat
  end_line : Nat
deriving DecidableEq, Repr

/-- Modelled from the spec: `content_fingerprint` lives in the missing
`chunker.py`.  Spec §3 requires a collision-resistant hash of `content`; the
model realises a collision-resistant hash as an injective function, here the
identity on the content string. -/
def Chunk.content_hash (c : Chunk) : String := c.content

/-- Modelled from the spec: the composite chunk identifier computed by
`compute_chunk_id` in the missing `chunker.py`.  Spec §4.2 requires a pure,
deterministic, collision-resistant combination of the five fields
(source, start line, end line, content fingerprint, model name), each
delimited so distinct field tuples cannot collide; the model realises this
as the tuple itself. -/
structure ChunkId where
  source : String
  start_line : Nat
  end_line : Nat
  content_hash : String
  model : String
deriving DecidableEq, Repr

/-- `compute_chunk_id(c.source, c.start_line, c.end_line, c.content_hash, model)`
as called in core.py lines 114-117 and 158-161. -/
def compute_chunk_id (source : String) (start_line end_line : Nat)
    (content_hash model : String) : ChunkId :=
  ⟨source, start_line, end_line, content_hash, model⟩

/-- The identifier of a chunk under a given embedding-model name. -/
def chunkId (c : Chunk) (model : String) : ChunkId :=
  compute_chunk_id c.source c.start_line c.end_line c.content_hash model

/-- An indexed record as built in core.py lines 162-173 and stored through
`MilvusStore.upsert` (primary key `chunk_hash`). -/
structure Record where
  chunk_hash : ChunkId
  embedding : Vec
  content : String
  source : String
  heading : String
  heading_level : Nat
  start_line : Nat
  end_line : Nat
deriving DecidableEq, Repr

/-- The vector store's collection contents: a list of records.  `upsert`
keeps at most one record per `chunk_hash` (Milvus primary-key semantics). -/
abbrev Store := List Record

namespace MilvusStore

/-- store.py `hashes_by_source`: all `chunk_hash` values of records whose
`source` field equals the given source. -/
def hashes_by_source (st : Store) (source : String) : List ChunkId :=
  (st.filter (fun r => r.source = source)).map Record.chunk_hash

/-- store.py `delete_by_hashes`: remove the records whose primary key is in
the given list. -/
def delete_by_hashes (st : Store) (hashes : List ChunkId) : Store :=
  st.filter (fun r => r.chunk_hash ∉ hashes)

/-- store.py `delete_by_source`: remove all records of one source. -/
def delete_by_source (st : Store) (source : String) : Store :=
  st.filter (fun r => r.source ≠ source)

/-- store.py `indexed_sources`: the distinct `source` values present. -/
def indexed_sources (st : Store) : List String :=
  (st.map Record.source).dedup

/-- store.py `upsert`: insert or replace by primary key `chunk_hash`. -/
def upsert (st : Store) (recs : List Record) : Store :=
  st.filter (fun r => recs.all (fun q => q.chunk_hash ≠ r.chunk_hash)) ++ recs

end MilvusStore

/-- An embedding backend as consumed by core.py: a model name and an
`embed` call mapping a batch of texts to vectors, which may fail (a raised
provider exception is an `Except.error`). -/
structure Embedder where
  model_name : String
  embed : List String → Except String (List Vec)

/-- One operation issued to the vector store, in program order. -/
inductive StoreOp where
  | deleteByHashes : List ChunkId → StoreOp
  | deleteBySource : String → StoreOp
  | upsertOp : List Record → StoreOp
deriving DecidableEq, Repr

/-- Is this store operation a deletion? -/
def StoreOp.isDelete : StoreOp → Bool
  | .deleteByHashes _ => true
  | .deleteBySource _ => true
  | .upsertOp _ => false

/-- Is this store operation an upsert? -/
def StoreOp.isUpsert : StoreOp → Bool
  | .upsertOp _ => true
  | _ => false

/-- The chunk identifiers a store operation deletes by primary key. -/
def StoreOp.deletedHashes : StoreOp → List ChunkId
  | .deleteByHashes hs => hs
  | _ => []

/-- All identifiers deleted by primary key across a trace of store
operations. -/
def deletedIds (ops : List StoreOp) : List ChunkId :=
  (ops.map StoreOp.deletedHashes).flatten

/-! ## The batching dispatcher (embeddings/utils.py `batched_embed`) -/

/-- The contiguous groups visited by the loop
`for i in range(0, len(texts), batch_size)` in utils.py line 31 and
core.py line 151: slices `texts[i : i + batch_size]`.  Structural recursion
on a fuel bound (the list length bounds the number of groups, since every
group taken is nonempty). -/
def batchGroupsAux (bs : Nat) : Nat → List α → List (List α)
  | 0, _ => []
  | _ + 1, [] => []
  | fuel + 1, x :: xs =>
      (x :: xs.take (bs - 1)) :: batchGroupsAux bs fuel (xs.drop (bs - 1))

/-- The list of batches `[texts[0:bs], texts[bs:2*bs], ...]`. -/
def batchGroups (bs : Nat) (l : List α) : List (List α) :=
  batchGroupsAux bs l.length l

/-- utils.py `batched_embed`, instrumented: the first component is the list
of argument lists passed to `embed_fn`, in call order; the second is the
returned value (`Except.error` models the raised `ValueError`).  The guards
appear in source order: the empty-input check precedes the batch-size
check. -/
def batched_embed {α β : Type} (texts : List α) (embed_fn : List α → List β)
    (batch_size : Int) : List (List α) × Except String (List β) :=
  if texts.isEmpty then ([], .ok [])
  else if batch_size ≤ 0 then
    ([], .error ("batch_size must be >= 1, got " ++ toString batch_size))
  else if (texts.length : Int) ≤ batch_size then ([texts], .ok (embed_fn texts))
  else
    let groups := batchGroups batch_size.toNat texts
    (groups, .ok (groups.map embed_fn).flatten)

/-! ## Embed-and-store (core.py `MemSearch._embed_and_store`) -/

/-- Run the embedding backend over a list of batches, as the loop in
core.py lines 151-154 does: sequentially, stopping at the first failure.
Returns the argument lists actually passed to `embed` (in call order) and
either the concatenated embeddings or the first error. -/
def runBatches (embed : List String → Except String (List Vec)) :
    List (List String) → List (List String) × Except String (List Vec)
  | [] => ([], .ok [])
  | b :: bs =>
    match embed b with
    | .error e => ([b], .error e)
    | .ok vs =>
      let r := runBatches embed bs
      (b :: r.1,
       match r.2 with
       | .error e => .error e
       | .ok rest => .ok (vs ++ rest))

/-- The observable outcome of an indexing operation: the store operations
issued in order, the argument lists passed to the embedding backend, the
store contents afterwards, and the returned count or propagated error. -/
structure IndexOutcome where
  ops : List StoreOp
  embedCalls : List (List String)
  state : Store
  result : Except String Nat
deriving DecidableEq, Repr

/-- The record built for one chunk in core.py lines 162-173. -/
def mkRecord (c : Chunk) (v : Vec) (model : String) : Record :=
  { chunk_hash := chunkId c model
    embedding := v
    content := c.content
    source := c.source
    heading := c.heading
    heading_level := c.heading_level
    start_line := c.start_line
    end_line := c.end_line }

/-- core.py `MemSearch._embed_and_store`: embed the chunks' contents in
batches of `batch_size` (96 at its call site), then build one record per
chunk and upsert them all in a single store call.  A failing embedding
batch propagates before any record is built; if the backend returned fewer
vectors than chunks, building `records` raises an index error (modelled as
`Except.error`) before the upsert. -/
def embed_and_store (st : Store) (emb : Embedder) (chunks : List Chunk)
    (batch_size : Nat) : IndexOutcome :=
  if chunks.isEmpty then ⟨[], [], st, .ok 0⟩
  else
    let contents := chunks.map Chunk.content
    let r := runBatches emb.embed (batchGroups batch_size contents)
    match r.2 with
    | .error e => ⟨[], r.1, st, .error e⟩
    | .ok embeddings =>
      if embeddings.length < chunks.length then
        ⟨[], r.1, st, .error "IndexError: list index out of range"⟩
      else
        let records := (chunks.zip embeddings).map
          (fun p => mkRecord p.1 p.2 emb.model_name)
        ⟨[StoreOp.upsertOp records], r.1, MilvusStore.upsert st records,
         .ok records.length⟩

/-! ## Per-file re-index (core.py `MemSearch._index_file`) -/

/-- core.py `MemSearch._index_file` from line 111 on, taking the chunker's
output `chunks` for the file as a parameter (the chunker itself is not
among the provided sources; spec §4.1 makes it a deterministic pure
function of the file text).  Computes current identifiers, fetches stored
identifiers for the source, deletes the stale ones, and embeds-and-stores
the chunks not already present (all chunks under `force`). -/
def indexFile (st : Store) (emb : Embedder) (source : String)
    (chunks : List Chunk) (force : Bool) : IndexOutcome :=
  let model := emb.model_name
  let chunk_ids := chunks.map (fun c => chunkId c model)
  let old_ids := MilvusStore.hashes_by_source st source
  let stale := old_ids.filter (fun h => h ∉ chunk_ids)
  let delOps : List StoreOp :=
    if stale.isEmpty then [] else [StoreOp.deleteByHashes stale]
  let st1 := if stale.isEmpty then st else MilvusStore.delete_by_hashes st stale
  if chunks.isEmpty then ⟨delOps, [], st1, .ok 0⟩
  else
    let toEmbed :=
      if force then chunks
      else chunks.filter (fun c => chunkId c model ∉ old_ids)
    if toEmbed.isEmpty then ⟨delOps, [], st1, .ok 0⟩
    else
      let o := embed_and_store st1 emb toEmbed 96
      ⟨delOps ++ o.ops, o.embedCalls, o.state, o.result⟩

/-! ## Full index pass (core.py `MemSearch.index`) -/

/-- One file as the full pass sees it: its path and the result of reading
and chunking it (`Except.error` models a raised read error, e.g. an
unreadable file: core.py line 105 `f.path.read_text` has no handler
around it). -/
structure FileEntry where
  path : String
  readResult : Except String (List Chunk)
deriving Repr

/-- The per-file loop of core.py lines 82-85: index each file in turn,
accumulating the returned counts.  There is no exception handler in the
loop, so a file whose read or embed step fails ends the loop immediately
with that error. -/
def indexPassLoop (emb : Embedder) (force : Bool) :
    List FileEntry → Store → List StoreOp → List (List String) → Nat →
    IndexOutcome
  | [], st, ops, calls, total => ⟨ops, calls, st, .ok total⟩
  | f :: fs, st, ops, calls, total =>
    match f.readResult with
    | .error e => ⟨ops, calls, st, .error e⟩
    | .ok chunks =>
      let o := indexFile st emb f.path chunks force
      match o.result with
      | .error e => ⟨ops ++ o.ops, calls ++ o.embedCalls, o.state, .error e⟩
      | .ok n =>
          indexPassLoop emb force fs o.state (ops ++ o.ops)
            (calls ++ o.embedCalls) (total + n)

/-- core.py `MemSearch.index`: run the per-file loop over the scanned
files, then delete every stored source absent from the scan (lines 88-92).
The cleanup runs only if the loop completed, since an exception in the
loop propagates first. -/
def indexPass (st : Store) (emb : Embedder) (files : List FileEntry)
    (force : Bool) : IndexOutcome :=
  let loopOut := indexPassLoop emb force files st [] [] 0
  match loopOut.result with
  | .error _ => loopOut
  | .ok total =>
    let active := files.map FileEntry.path
    let staleSources :=
      (MilvusStore.indexed_sources loopOut.state).filter
        (fun s => s ∉ active)
    ⟨loopOut.ops ++ staleSources.map StoreOp.deleteBySource,
     loopOut.embedCalls,
     staleSources.foldl MilvusStore.delete_by_source loopOut.state,
     .ok total⟩

/-! ## Search (core.py `MemSearch.search` against store.py `MilvusStore.search`) -/

/-- The keyword parameter names the signature of `MilvusStore.search`
accepts (store.py lines 88-94): `top_k` and `filter_expr` are
keyword-only; `query_embedding` is positional. -/
def searchKeywordParams : List String := ["top_k", "filter_expr"]

/-- The keyword argument names `MemSearch.search` passes in
`self._store.search(embeddings[0], query_text=query, top_k=top_k)`
(core.py line 203). -/
def searchCallKeywords : List String := ["query_text", "top_k"]

/-- core.py `MemSearch.search`: embed the query, then call the store's
search.  Python evaluates the arguments (`embeddings[0]` first), then binds
keywords against the callee's signature: a keyword name the signature does
not accept raises `TypeError` before the callee body runs.  The store's
actual similarity search is an external collaborator, passed in as
`storeSearch`. -/
def memSearch_search (emb : Embedder) (storeSearch : Vec → Nat → List Record)
    (query : String) (top_k : Nat) : Except String (List Record) :=
  match emb.embed [query] with
  | .error e => .error e
  | .ok embeddings =>
    match embeddings with
    | [] => .error "IndexError: list index out of range"
    | v :: _ =>
      match searchCallKeywords.find?
          (fun k => !(searchKeywordParams.contains k)) with
      | some k =>
          .error ("TypeError: search got an unexpected keyword argument " ++ k)
      | none => .ok (storeSearch v top_k)

/-! ## Debounced watcher (watcher.py `_MarkdownHandler`) -/

/-- The handler's mutable state: `timers` maps a path to the absolute time
its pending timer will fire, `pending` maps a path to the latest observed
event kind, and `fired` logs the callback invocations `(path, kind)` in
order.  Both maps are association lists with at most one entry per path
(the Python dicts). -/
structure WatchState where
  timers : List (String × Nat)
  pending : List (String × String)
  fired : List (String × String)
deriving DecidableEq, Repr

/-- Dictionary removal: drop every entry with the given key. -/
def removeKey {α : Type} (k : String) (l : List (String × α)) :
    List (String × α) :=
  l.filter (fun p => p.1 ≠ k)

/-- Dictionary assignment `d[k] = v`: the new binding replaces any old
one. -/
def setKey {α : Type} (k : String) (v : α) (l : List (String × α)) :
    List (String × α) :=
  (k, v) :: removeKey k l

/-- Dictionary lookup. -/
def lookupKey {α : Type} (k : String) : List (String × α) → Option α
  | [] => none
  | p :: rest => if p.1 = k then some p.2 else lookupKey k rest

/-- watcher.py `_MarkdownHandler._schedule` (lines 37-44), executed under
the handler's lock at absolute time `now`: record the latest event kind
for the path, cancel the path's pending timer if any, and start a fresh
timer due at `now + debounce`. -/
def schedule (debounce now : Nat) (event_type path : String)
    (s : WatchState) : WatchState :=
  { s with
    pending := setKey path event_type s.pending
    timers := setKey path (now + debounce) s.timers }

/-- watcher.py `_MarkdownHandler._fire` (lines 46-52): pop the path's
pending kind and timer; if a kind was pending, invoke the callback with
it. -/
def fire (path : String) (s : WatchState) : WatchState :=
  match lookupKey path s.pending with
  | none =>
      { s with
        pending := removeKey path s.pending
        timers := removeKey path s.timers }
  | some kind =>
      { timers := removeKey path s.timers
        pending := removeKey path s.pending
        fired := s.fired ++ [(path, kind)] }

/-- Let every timer due at or before time `t` elapse: each due timer's
`_fire` runs. -/
def fireDue (t : Nat) (s : WatchState) : WatchState :=
  ((s.timers.filter (fun p => p.2 ≤ t)).map Prod.fst).foldl
    (fun st p => fire p st) s

/-- Let all remaining timers elapse (time runs out past every deadline). -/
def drain (s : WatchState) : WatchState :=
  (s.timers.map Prod.fst).foldl (fun st p => fire p st) s

/-- Run the handler over a timeline of `(time, event4kind, path)` events in
nondecreasing time order: before each event is scheduled, every timer due
by that event's time fires; after the last event, all remaining timers
fire. -/
def runEvents (debounce : Nat) :
    List (Nat × String × String) → WatchState → WatchState
  | [], s => drain s
  | (t, kind, path) :: rest, s =>
      runEvents debounce rest (schedule debounce t kind path (fireDue t s))

/-- The handler's bookkeeping invariant: at most one timer entry and one
pending-kind entry per path. -/
def WatchWF (s : WatchState) : Prop :=
  (s.timers.map Prod.fst).Nodup ∧ (s.pending.map Prod.fst).Nodup

/-! ## Lemmas about the batch loop -/

lemma batchGroupsAux_nil (bs fuel : Nat) :
    batchGroupsAux bs fuel ([] : List α) = [] := by
  cases fuel <;> rfl

lemma batchGroupsAux_flatten (bs : Nat) :
    ∀ (fuel : Nat) (l : List α), l.length ≤ fuel →
      (batchGroupsAux bs fuel l).flatten = l := by
  intro fuel
  induction fuel with
  | zero =>
    intro l hl
    have : l = [] := List.length_eq_zero.mp (Nat.le_zero.mp hl)
    subst this; rfl
  | succ n ih =>
    intro l hl
    cases l with
    | nil => rfl
    | cons x xs =>
      simp only [batchGroupsAux, List.flatten_cons]
      have hdrop : (xs.drop (bs - 1)).length ≤ n := by
        simp only [List.length_drop]
        simp only [List.length_cons] at hl
        omega
      rw [ih _ hdrop]
      simp [List.take_append_drop]

lemma batchGroupsAux_mem (bs : Nat) (hbs : 1 ≤ bs) :
    ∀ (fuel : Nat) (l : List α), l.length ≤ fuel →
      ∀ g ∈ batchGroupsAux bs fuel l, g ≠ [] ∧ g.length ≤ bs := by
  intro fuel
  induction fuel with
  | zero => intro l _ g hg; simp [batchGroupsAux] at hg
  | succ n ih =>
    intro l hl g hg
    cases l with
    | nil => simp [batchGroupsAux] at hg
    | cons x xs =>
      simp only [batchGroupsAux, List.mem_cons] at hg
      rcases hg with rfl | hg
      · refine ⟨by simp, ?_⟩
        simp only [List.length_cons, List.length_take]
        omega
      · have hdrop : (xs.drop (bs - 1)).length ≤ n := by
          simp only [List.length_drop]
          simp only [List.length_cons] at hl
          omega
        exact ih _ hdrop g hg

lemma batchGroupsAux_dropLast (bs : Nat) (hbs : 1 ≤ bs) :
    ∀ (fuel : Nat) (l : List α), l.length ≤ fuel →
      ∀ g ∈ (batchGroupsAux bs fuel l).dropLast, g.length = bs := by
  intro fuel
  induction fuel with
  | zero => intro l _ g hg; simp [batchGroupsAux] at hg
  | succ n ih =>
    intro l hl g hg
    cases l with
    | nil => simp [batchGroupsAux] at hg
    | cons x xs =>
      simp only [batchGroupsAux] at hg
      rcases hrest : batchGroupsAux bs n (xs.drop (bs - 1)) with _ | ⟨r, rs⟩
      · rw [hrest] at hg; simp at hg
      · rw [hrest] at hg
        have hne : xs.drop (bs - 1) ≠ [] := by
          intro hnil
          rw [hnil, batchGroupsAux_nil] at hrest
          exact (List.cons_ne_nil r rs) hrest.symm
        have hxs : bs - 1 < xs.length := by
          by_contra hcon
          push_neg at hcon
          exact hne (List.drop_eq_nil_of_le hcon)
        have hdrop : (xs.drop (bs - 1)).length ≤ n := by
          simp only [List.length_drop]
          simp only [List.length_cons] at hl
          omega
        rw [List.dropLast_cons_of_ne_nil (by simp)] at hg
        rcases List.mem_cons.mp hg with rfl | hg'
        · simp only [List.length_cons, List.length_take]
          omega
        · have := ih _ hdrop g
          rw [hrest] at this
          exact this hg'

lemma batchGroupsAux_map_length_congr (bs : Nat) :
    ∀ (fuel : Nat) (l₁ : List α) (l₂ : List β), l₁.length = l₂.length →
      (batchGroupsAux bs fuel l₁).map List.length
        = (batchGroupsAux bs fuel l₂).map List.length := by
  intro fuel
  induction fuel with
  | zero => intro l₁ l₂ _; simp [batchGroupsAux]
  | succ n ih =>
    intro l₁ l₂ hlen
    cases l₁ with
    | nil =>
      cases l₂ with
      | nil => rfl
      | cons y ys => simp at hlen
    | cons x xs =>
      cases l₂ with
      | nil => simp at hlen
      | cons y ys =>
        simp only [List.length_cons] at hlen
        simp only [batchGroupsAux, List.map_cons]
        have hxy : xs.length = ys.length := by omega
        congr 1
        · simp [List.length_take, hxy]
        · exact ih (xs.drop (bs - 1)) (ys.drop (bs - 1)) (by simp [hxy])

/-- The batching dispatcher's contract at batch limit `bs` on input `texts`
with unit of work `f`: the result is the in-order concatenation of the
per-call results; the calls' arguments concatenate back to the input in
order; every call is nonempty and within the limit; every call but the
last is exactly full; at most the limit means one call with the whole
input; empty input means no calls; ten items at limit four mean call
sizes `[4, 4, 2]`. -/
def BatchDispatchSpec {α β : Type} (texts : List α) (f : List α → List β)
    (bs : Int) : Prop :=
  (batched_embed texts f bs).2 =
      .ok (((batched_embed texts f bs).1.map f).flatten)
  ∧ ((batched_embed texts f bs).1.flatten = texts)
  ∧ (∀ g ∈ (batched_embed texts f bs).1, g ≠ [] ∧ g.length ≤ bs.toNat)
  ∧ (∀ g ∈ (batched_embed texts f bs).1.dropLast, g.length = bs.toNat)
  ∧ (texts ≠ [] → (texts.length : Int) ≤ bs →
      (batched_embed texts f bs).1 = [texts])
  ∧ (texts = [] → (batched_embed texts f bs).1 = [])
  ∧ (bs = 4 → texts.length = 10 →
      (batched_embed texts f bs).1.map List.length = [4, 4, 2])

/-- C7: the batching dispatcher, on a batch limit of at least one, makes
one call with the whole input when it fits the limit, otherwise one call
per contiguous full group (final group possibly smaller) in input order,
concatenating per-call results positionally; an empty input yields an
empty result with zero calls, and 10 items at limit 4 yield exactly the
call sizes `[4, 4, 2]`. -/
theorem batched_embed_dispatch {α β : Type} (texts : List α)
    (f : List α → List β) (bs : Int) (hbs : 1 ≤ bs) :
    BatchDispatchSpec texts f bs := by
  unfold BatchDispatchSpec batched_embed
  by_cases hempty : texts = []
  · subst hempty
    simp
  · rw [if_neg (by simpa using hempty)]
    rw [if_neg (by omega : ¬ bs ≤ 0)]
    by_cases hlen : (texts.length : Int) ≤ bs
    · rw [if_pos hlen]
      refine ⟨by simp, by simp, ?_, by simp, fun _ _ => rfl, fun h => absurd h hempty, ?_⟩
      · intro g hg
        rcases List.mem_singleton.mp hg with rfl
        exact ⟨hempty, by omega⟩
      · intro hbs4 hlen10
        subst hbs4
        rw [hlen10] at hlen
        omega
    · rw [if_neg hlen]
      have hfuel : texts.length ≤ texts.length := le_refl _
      have hbs1 : 1 ≤ bs.toNat := by omega
      refine ⟨rfl, ?_, ?_, ?_, ?_, fun h => absurd h hempty, ?_⟩
      · exact batchGroupsAux_flatten _ _ _ hfuel
      · exact fun g hg => batchGroupsAux_mem _ hbs1 _ _ hfuel g hg
      · exact fun g hg => batchGroupsAux_dropLast _ hbs1 _ _ hfuel g hg
      · intro _ hc
        exact absurd hc hlen
      · intro hbs4 hlen10
        subst hbs4
        show (batchGroupsAux _ _ texts).map List.length = [4, 4, 2]
        rw [batchGroupsAux_map_length_congr _ _ texts (List.range 10)
          (by simp [hlen10])]
        rw [hlen10]
        decide

/-- Witness for C7: the dispatcher contract instantiated at 10 items with
batch limit 4. -/
theorem batched_embed_dispatch_witness :
    (1 : Int) ≤ 4 ∧ BatchDispatchSpec (List.range 10) (fun l => l) 4 :=
  ⟨by norm_num, batched_embed_dispatch (List.range 10) (fun l => l) 4 (by norm_num)⟩

/-- Counterexample to C8 as stated: with an empty item sequence, a batch
limit of 0 does not fail — the dispatcher returns an empty result with
zero calls, because the empty-input check precedes the batch-size check
(utils.py lines 24-27). -/
theorem batched_embed_empty_zero_limit :
    batched_embed ([] : List Nat) (fun l => l) 0 = ([], Except.ok []) := rfl

/-- C8 (amended): for every NON-EMPTY input item sequence, calling the
batching dispatcher with batch limit ≤ 0 fails with an invalid-argument
condition (a ValueError) rather than returning a result; the empty input
instead returns an empty result without error. -/
theorem batched_embed_nonpos_limit {α β : Type} (texts : List α)
    (f : List α → List β) (bs : Int) (hne : texts ≠ []) (hbs : bs ≤ 0) :
    batched_embed texts f bs =
      ([], .error ("batch_size must be >= 1, got " ++ toString bs)) := by
  unfold batched_embed
  rw [if_neg (by simpa using hne), if_pos hbs]

/-- Witness for the amended C8: one item with batch limit 0 fails. -/
theorem batched_embed_nonpos_limit_witness :
    ([1] : List Nat) ≠ [] ∧ (0 : Int) ≤ 0 ∧
      batched_embed ([1] : List Nat) (fun l => l) 0 =
        ([], .error ("batch_size must be >= 1, got " ++ toString (0 : Int))) :=
  ⟨by simp, by norm_num,
    batched_embed_nonpos_limit [1] (fun l => l) 0 (by simp) (by norm_num)⟩

/-- C6: every call to `MemSearch.search` whose query embedding succeeds
raises a TypeError — the keyword argument `query_text` it passes is not
among the keyword parameters `MilvusStore.search` accepts — and never
returns a result list. -/
theorem memSearch_search_always_raises (emb : Embedder)
    (storeSearch : Vec → Nat → List Record) (query : String) (top_k : Nat)
    (v : Vec) (vs : List Vec) (h : emb.embed [query] = .ok (v :: vs)) :
    memSearch_search emb storeSearch query top_k =
        .error "TypeError: search got an unexpected keyword argument query_text"
      ∧ ∀ res : List Record,
          memSearch_search emb storeSearch query top_k ≠ .ok res := by
  have hmain : memSearch_search emb storeSearch query top_k =
      .error "TypeError: search got an unexpected keyword argument query_text" := by
    unfold memSearch_search
    rw [h]
    rfl
  refine ⟨hmain, fun res hok => ?_⟩
  rw [hmain] at hok
  exact Except.noConfusion hok

/-- Witness for C6: a backend returning one vector for the query still
yields the TypeError, never a result. -/
theorem memSearch_search_always_raises_witness :
    (⟨"m", fun ts => .ok (ts.map (fun _ => ([] : Vec)))⟩ : Embedder).embed
        ["q"] = .ok (([] : Vec) :: []) ∧
      (memSearch_search ⟨"m", fun ts => .ok (ts.map (fun _ => ([] : Vec)))⟩
          (fun _ _ => []) "q" 5 =
        .error "TypeError: search got an unexpected keyword argument query_text"
      ∧ ∀ res : List Record,
          memSearch_search ⟨"m", fun ts => .ok (ts.map (fun _ => ([] : Vec)))⟩
            (fun _ _ => []) "q" 5 ≠ .ok res) :=
  ⟨rfl, memSearch_search_always_raises _ _ "q" 5 _ _ rfl⟩

/-! ## Store-state membership lemmas -/

lemma mem_delete_by_hashes (st : Store) (hs : List ChunkId) (r : Record) :
    r ∈ MilvusStore.delete_by_hashes st hs ↔ r ∈ st ∧ r.chunk_hash ∉ hs := by
  simp [MilvusStore.delete_by_hashes]

lemma mem_upsert (st : Store) (recs : List Record) (r : Record) :
    r ∈ MilvusStore.upsert st recs ↔
      (r ∈ st ∧ ∀ q ∈ recs, q.chunk_hash ≠ r.chunk_hash) ∨ r ∈ recs := by
  simp [MilvusStore.upsert, List.mem_filter]

lemma mem_hashes_by_source (st : Store) (s : String) (h : ChunkId) :
    h ∈ MilvusStore.hashes_by_source st s ↔
      ∃ r ∈ st, r.source = s ∧ r.chunk_hash = h := by
  simp [MilvusStore.hashes_by_source, List.mem_filter, and_assoc]

/-- C9: the embed-and-store step never upserts partially: if any embedding
batch fails (or the backend under-delivers), no store operation at all is
issued and the store is unchanged; and any upsert that is issued carries a
record for exactly every chunk of the step, in order. -/
theorem embed_and_store_no_partial_upsert (st : Store) (emb : Embedder)
    (chunks : List Chunk) (bs : Nat) :
    ((∃ e, (embed_and_store st emb chunks bs).result = .error e) →
        (embed_and_store st emb chunks bs).ops = []
        ∧ (embed_and_store st emb chunks bs).state = st)
    ∧ ∀ recs, StoreOp.upsertOp recs ∈ (embed_and_store st emb chunks bs).ops →
        recs.map Record.chunk_hash
          = chunks.map (fun c => chunkId c emb.model_name) := by
  unfold embed_and_store
  by_cases hc : chunks.isEmpty
  · simp only [hc, if_true]
    exact ⟨fun ⟨e, he⟩ => absurd he (by simp), fun recs h => absurd h (by simp)⟩
  · simp only [hc, Bool.false_eq_true, if_false]
    rcases hres : (runBatches emb.embed
        (batchGroups bs (chunks.map Chunk.content))).2 with e | embeddings
    · simp only [hres]
      constructor
      · intro _
        simp
      · intro recs hmem
        simp at hmem
    · simp only [hres]
      by_cases hlen : embeddings.length < chunks.length
      · simp only [hlen, if_true]
        constructor
        · intro _
          simp
        · intro recs hmem
          simp at hmem
      · simp only [hlen, if_false]
        refine ⟨fun ⟨e, he⟩ => absurd he (by simp), fun recs h => ?_⟩
        have hrecs : recs = (chunks.zip embeddings).map
            (fun p => mkRecord p.1 p.2 emb.model_name) := by
          simpa using h
        subst hrecs
        rw [List.map_map]
        have hstep : List.map
              (Record.chunk_hash ∘ fun p : Chunk × Vec =>
                mkRecord p.1 p.2 emb.model_name) (chunks.zip embeddings)
            = List.map ((fun c => chunkId c emb.model_name) ∘ Prod.fst)
                (chunks.zip embeddings) := rfl
        rw [hstep, ← List.map_map,
          List.map_fst_zip _ _ (Nat.le_of_not_lt hlen)]

/-- Witness for C9: a failing second batch issues no operation; a
successful run issues one upsert covering both chunks. -/
theorem embed_and_store_no_partial_upsert_witness :
    ((∃ e, (embed_and_store []
          ⟨"m", fun ts => if ts = ["b"] then .error "boom"
                          else .ok (ts.map (fun _ => ([] : Vec)))⟩
          [⟨"s", "a", "", 0, 1, 1⟩, ⟨"s", "b", "", 0, 2, 2⟩] 1).result = .error e) →
        (embed_and_store []
          ⟨"m", fun ts => if ts = ["b"] then .error "boom"
                          else .ok (ts.map (fun _ => ([] : Vec)))⟩
          [⟨"s", "a", "", 0, 1, 1⟩, ⟨"s", "b", "", 0, 2, 2⟩] 1).ops = []
        ∧ (embed_and_store []
          ⟨"m", fun ts => if ts = ["b"] then .error "boom"
                          else .ok (ts.map (fun _ => ([] : Vec)))⟩
          [⟨"s", "a", "", 0, 1, 1⟩, ⟨"s", "b", "", 0, 2, 2⟩] 1).state = [])
    ∧ ∀ recs, StoreOp.upsertOp recs ∈ (embed_and_store []
          ⟨"m", fun ts => if ts = ["b"] then .error "boom"
                          else .ok (ts.map (fun _ => ([] : Vec)))⟩
          [⟨"s", "a", "", 0, 1, 1⟩, ⟨"s", "b", "", 0, 2, 2⟩] 1).ops →
        recs.map Record.chunk_hash
          = [⟨"s", "a", "", 0, 1, 1⟩, ⟨"s", "b", "", 0, 2, 2⟩].map
              (fun c => chunkId c "m") :=
  embed_and_store_no_partial_upsert [] _ _ 1

/-- Every store operation the embed-and-store step issues is an upsert. -/
lemma embed_and_store_ops_upsert (st : Store) (emb : Embedder)
    (chunks : List Chunk) (bs : Nat) :
    ∀ op ∈ (embed_and_store st emb chunks bs).ops, op.isUpsert = true := by
  unfold embed_and_store
  by_cases hc : chunks.isEmpty
  · simp [hc]
  · simp only [hc, Bool.false_eq_true, if_false]
    rcases hres : (runBatches emb.embed
        (batchGroups bs (chunks.map Chunk.content))).2 with e | embeddings
    · simp [hres]
    · simp only [hres]
      by_cases hlen : embeddings.length < chunks.length
      · simp [hlen]
      · simp only [hlen, if_false]
        intro op hop
        rcases List.mem_singleton.mp hop with rfl
        rfl

/-- An upsert operation deletes nothing by primary key. -/
lemma deletedHashes_of_upsert (op : StoreOp) (h : op.isUpsert = true) :
    op.deletedHashes = [] := by
  cases op <;> simp_all [StoreOp.isUpsert, StoreOp.deletedHashes]

/-- The operation trace of a per-file re-index: the conditional stale
deletion first, followed only by upserts. -/
lemma indexFile_ops_eq (st : Store) (emb : Embedder) (source : String)
    (chunks : List Chunk) (force : Bool) :
    ∃ us, (indexFile st emb source chunks force).ops
        = (if ((MilvusStore.hashes_by_source st source).filter
                (fun h => h ∉ chunks.map (fun c => chunkId c emb.model_name))).isEmpty
           then []
           else [StoreOp.deleteByHashes
              ((MilvusStore.hashes_by_source st source).filter
                (fun h => h ∉ chunks.map (fun c => chunkId c emb.model_name)))]) ++ us
      ∧ ∀ op ∈ us, op.isUpsert = true := by
  simp only [indexFile]
  by_cases hc : chunks.isEmpty
  · simp only [hc, if_true]
    exact ⟨[], by simp, by simp⟩
  · simp only [hc, Bool.false_eq_true, if_false]
    by_cases hte : (if force then chunks
        else chunks.filter
          (fun c => chunkId c emb.model_name ∉
            MilvusStore.hashes_by_source st source)).isEmpty
    · simp only [hte, if_true]
      exact ⟨[], by simp, by simp⟩
    · simp only [hte, Bool.false_eq_true, if_false]
      exact ⟨_, rfl, embed_and_store_ops_upsert _ _ _ _⟩

lemma deletedIds_append (a b : List StoreOp) :
    deletedIds (a ++ b) = deletedIds a ++ deletedIds b := by
  simp [deletedIds]

lemma deletedIds_upserts_nil (us : List StoreOp)
    (h : ∀ op ∈ us, op.isUpsert = true) : deletedIds us = [] := by
  induction us with
  | nil => rfl
  | cons hd tl ih =>
    simp only [deletedIds, List.map_cons, List.flatten_cons]
    rw [deletedHashes_of_upsert hd (h hd (by simp))]
    simpa [deletedIds] using ih (fun op hop => h op (by simp [hop]))

/-- The property of C1 for one per-file re-index: the identifiers deleted
are exactly the stored ones minus the current ones, and in the operation
trace a (possibly absent) deletion precedes all upserts. -/
def StaleDeletionSpec (st : Store) (emb : Embedder) (source : String)
    (chunks : List Chunk) (force : Bool) : Prop :=
  (∀ h : ChunkId,
      h ∈ deletedIds (indexFile st emb source chunks force).ops ↔
        (h ∈ MilvusStore.hashes_by_source st source ∧
          h ∉ chunks.map (fun c => chunkId c emb.model_name)))
  ∧ ∃ ds us, (indexFile st emb source chunks force).ops = ds ++ us
      ∧ (∀ op ∈ ds, op.isDelete = true)
      ∧ (∀ op ∈ us, op.isUpsert = true)

/-- C1: for every per-file re-index, the set of identifiers deleted from
the vector store is exactly `stored_ids − current_ids`, and the deletion
is issued before any upsert for that file. -/
lemma indexFile_deletedIds_iff (st : Store) (emb : Embedder)
    (source : String) (chunks : List Chunk) (force : Bool) :
    ∀ h : ChunkId,
      h ∈ deletedIds (indexFile st emb source chunks force).ops ↔
        (h ∈ MilvusStore.hashes_by_source st source ∧
          h ∉ chunks.map (fun c => chunkId c emb.model_name)) := by
  obtain ⟨us, hops, hus⟩ := indexFile_ops_eq st emb source chunks force
  intro h
  rw [hops, deletedIds_append, deletedIds_upserts_nil us hus, List.append_nil]
  by_cases hst : ((MilvusStore.hashes_by_source st source).filter
      (fun x => x ∉ chunks.map (fun c => chunkId c emb.model_name))).isEmpty
  · rw [if_pos hst]
    simp only [deletedIds, List.map_nil, List.flatten_nil, List.not_mem_nil,
      false_iff]
    rintro ⟨hmem, hnot⟩
    have hmf : h ∈ (MilvusStore.hashes_by_source st source).filter
        (fun x => x ∉ chunks.map (fun c => chunkId c emb.model_name)) :=
      List.mem_filter.mpr ⟨hmem, by simpa using hnot⟩
    rw [List.isEmpty_iff] at hst
    rw [hst] at hmf
    simp at hmf
  · rw [if_neg hst]
    simp [deletedIds, StoreOp.deletedHashes, List.mem_filter]

lemma indexFile_delete_before_upsert (st : Store) (emb : Embedder)
    (source : String) (chunks : List Chunk) (force : Bool) :
    ∃ ds us, (indexFile st emb source chunks force).ops = ds ++ us
      ∧ (∀ op ∈ ds, op.isDelete = true)
      ∧ (∀ op ∈ us, op.isUpsert = true) := by
  obtain ⟨us, hops, hus⟩ := indexFile_ops_eq st emb source chunks force
  refine ⟨_, us, hops, ?_, hus⟩
  intro op hop
  by_cases hst : ((MilvusStore.hashes_by_source st source).filter
      (fun x => x ∉ chunks.map (fun c => chunkId c emb.model_name))).isEmpty
  · rw [if_pos hst] at hop
    simp at hop
  · rw [if_neg hst] at hop
    rcases List.mem_singleton.mp hop with rfl
    rfl

theorem indexFile_stale_deletion (st : Store) (emb : Embedder)
    (source : String) (chunks : List Chunk) (force : Bool) :
    StaleDeletionSpec st emb source chunks force :=
  ⟨indexFile_deletedIds_iff st emb source chunks force,
   indexFile_delete_before_upsert st emb source chunks force⟩

/-- Witness for C1: a store holding one stale and one current record for
the source, re-indexed without force. -/
theorem indexFile_stale_deletion_witness :
    StaleDeletionSpec
      [mkRecord ⟨"a.md", "old", "", 0, 1, 1⟩ [] "m",
       mkRecord ⟨"a.md", "hello", "", 0, 1, 1⟩ [] "m"]
      ⟨"m", fun ts => .ok (ts.map (fun _ => ([] : Vec)))⟩ "a.md"
      [⟨"a.md", "hello", "", 0, 1, 1⟩] false :=
  indexFile_stale_deletion _ _ _ _ _

/-- Counterexample to C5 as stated: the full-pass loop (core.py lines
82-85) has no per-file exception handling, so an unreadable second file
aborts the whole pass — the pass returns that file's error rather than a
final count, and the third file is never indexed. -/
theorem indexPass_error_aborts :
    (indexPass [] ⟨"m", fun ts => .ok (ts.map (fun _ => ([] : Vec)))⟩
        [⟨"a.md", .ok [⟨"a.md", "A", "", 0, 1, 1⟩]⟩,
         ⟨"b.md", .error "PermissionError: unreadable"⟩,
         ⟨"c.md", .ok [⟨"c.md", "C", "", 0, 1, 1⟩]⟩] false).result
      = .error "PermissionError: unreadable"
    ∧ MilvusStore.hashes_by_source
        (indexPass [] ⟨"m", fun ts => .ok (ts.map (fun _ => ([] : Vec)))⟩
          [⟨"a.md", .ok [⟨"a.md", "A", "", 0, 1, 1⟩]⟩,
           ⟨"b.md", .error "PermissionError: unreadable"⟩,
           ⟨"c.md", .ok [⟨"c.md", "C", "", 0, 1, 1⟩]⟩] false).state "c.md"
      = [] :=
  ⟨rfl, rfl⟩

/-- C5 (amended): an error raised while re-indexing one file propagates to
the caller and aborts the pass at that file — no further file is
processed, no further store operation or embedding call is made, and the
error (not a count) is returned. -/
theorem indexPassLoop_error_propagates (emb : Embedder) (force : Bool)
    (p e : String) (fs : List FileEntry) (st : Store) (ops : List StoreOp)
    (calls : List (List String)) (total : Nat) :
    indexPassLoop emb force (⟨p, .error e⟩ :: fs) st ops calls total
      = ⟨ops, calls, st, .error e⟩ := rfl

/-! ## Corpus-level cleanup (C4) -/

lemma mem_delete_by_source (st : Store) (s : String) (r : Record) :
    r ∈ MilvusStore.delete_by_source st s ↔ r ∈ st ∧ r.source ≠ s := by
  simp [MilvusStore.delete_by_source]

lemma mem_foldl_delete_by_source (ss : List String) :
    ∀ (st : Store) (r : Record),
      r ∈ ss.foldl MilvusStore.delete_by_source st ↔
        r ∈ st ∧ r.source ∉ ss := by
  induction ss with
  | nil => intro st r; simp
  | cons s ss ih =>
    intro st r
    rw [List.foldl_cons, ih, mem_delete_by_source]
    simp only [List.mem_cons]
    tauto

lemma source_mem_indexed_sources (st : Store) (r : Record) (h : r ∈ st) :
    r.source ∈ MilvusStore.indexed_sources st := by
  simp only [MilvusStore.indexed_sources, List.mem_dedup]
  exact List.mem_map_of_mem Record.source h

/-- C4: if a full index pass completes, the store afterwards holds no
record whose source is absent from the scanned files — every source in the
store but not in the scan had all its records deleted during the pass. -/
theorem indexPass_deletes_missing_sources (st : Store) (emb : Embedder)
    (files : List FileEntry) (force : Bool) (n : Nat)
    (h : (indexPass st emb files force).result = .ok n) :
    ∀ r ∈ (indexPass st emb files force).state,
      r.source ∈ files.map FileEntry.path := by
  simp only [indexPass] at h ⊢
  rcases hloop : (indexPassLoop emb force files st [] [] 0).result
    with e | total
  · simp only [hloop] at h
    exact absurd h (by simp)
  · simp only [hloop] at h ⊢
    intro r hr
    have hr2 : r ∈ List.foldl MilvusStore.delete_by_source
        (indexPassLoop emb force files st [] [] 0).state
        (List.filter (fun s => decide (s ∉ List.map FileEntry.path files))
          (MilvusStore.indexed_sources
            (indexPassLoop emb force files st [] [] 0).state)) := hr
    rw [mem_foldl_delete_by_source] at hr2
    obtain ⟨hmem, hnot⟩ := hr2
    by_contra hact
    exact hnot (List.mem_filter.mpr
      ⟨source_mem_indexed_sources _ _ hmem, by simpa using hact⟩)

/-- Witness for C4: a pass over one file cleans a record of a source no
longer on disk. -/
theorem indexPass_deletes_missing_sources_witness :
    (indexPass [mkRecord ⟨"old.md", "x", "", 0, 1, 1⟩ [] "m"]
        ⟨"m", fun ts => .ok (ts.map (fun _ => ([] : Vec)))⟩
        [⟨"a.md", .ok [⟨"a.md", "A", "", 0, 1, 1⟩]⟩] false).result = .ok 1
    ∧ ∀ r ∈ (indexPass [mkRecord ⟨"old.md", "x", "", 0, 1, 1⟩ [] "m"]
        ⟨"m", fun ts => .ok (ts.map (fun _ => ([] : Vec)))⟩
        [⟨"a.md", .ok [⟨"a.md", "A", "", 0, 1, 1⟩]⟩] false).state,
      r.source ∈ ([⟨"a.md", .ok [⟨"a.md", "A", "", 0, 1, 1⟩]⟩] :
          List FileEntry).map FileEntry.path :=
  ⟨rfl, indexPass_deletes_missing_sources _ _ _ _ 1 rfl⟩

/-! ## Idempotence (C2) and model-change invalidation (C3) -/

lemma exists_zip_mem {α β : Type} :
    ∀ (l1 : List α) (l2 : List β) (a : α), a ∈ l1 → l1.length ≤ l2.length →
      ∃ b, (a, b) ∈ l1.zip l2 := by
  intro l1
  induction l1 with
  | nil => intro l2 a ha _; simp at ha
  | cons x xs ih =>
    intro l2 a ha hlen
    cases l2 with
    | nil => simp at hlen
    | cons y ys =>
      rcases List.mem_cons.mp ha with rfl | ha'
      · exact ⟨y, by simp⟩
      · obtain ⟨b, hb⟩ := ih ys a ha' (by simpa using Nat.le_of_succ_le_succ hlen)
        exact ⟨b, by simp [hb]⟩

/-- On success, the embed-and-store step leaves a record for every chunk
in the store, keyed by the chunk's identifier and carrying its source. -/
lemma embed_and_store_ok (st : Store) (emb : Embedder) (chunks : List Chunk)
    (bs : Nat) (n : Nat)
    (hok : (embed_and_store st emb chunks bs).result = .ok n) :
    ∀ c ∈ chunks, ∃ r ∈ (embed_and_store st emb chunks bs).state,
      r.chunk_hash = chunkId c emb.model_name ∧ r.source = c.source := by
  unfold embed_and_store at hok ⊢
  by_cases hc : chunks.isEmpty
  · rw [List.isEmpty_iff] at hc
    subst hc
    intro c hcmem
    simp at hcmem
  · simp only [(by simpa using hc : ¬ chunks.isEmpty = true),
      Bool.false_eq_true, if_false] at hok ⊢
    rcases hres : (runBatches emb.embed
        (batchGroups bs (chunks.map Chunk.content))).2 with e | embeddings
    · simp only [hres] at hok
      exact absurd hok (by simp)
    · simp only [hres] at hok ⊢
      by_cases hlen : embeddings.length < chunks.length
      · simp only [hlen, if_true] at hok
        exact absurd hok (by simp)
      · simp only [hlen, if_false] at hok ⊢
        intro c hcmem
        obtain ⟨v, hv⟩ := exists_zip_mem chunks embeddings c hcmem
          (Nat.le_of_not_lt hlen)
        refine ⟨mkRecord c v emb.model_name, ?_, rfl, rfl⟩
        rw [mem_upsert]
        exact Or.inr (List.mem_map.mpr ⟨(c, v), hv, rfl⟩)

/-- An identifier stored for a source stays stored for that source
through the embed-and-store step (the upsert may replace its record, but
only by a record of a chunk of the same source). -/
lemma embed_and_store_key_preserved (st : Store) (emb : Embedder)
    (cs : List Chunk) (bs : Nat) (source : String)
    (hsrc : ∀ c ∈ cs, c.source = source) (h : ChunkId)
    (hh : h ∈ MilvusStore.hashes_by_source st source) :
    h ∈ MilvusStore.hashes_by_source
      (embed_and_store st emb cs bs).state source := by
  unfold embed_and_store
  by_cases hc : cs.isEmpty
  · simp only [hc, if_true]
    exact hh
  · simp only [(by simpa using hc : ¬ cs.isEmpty = true),
      Bool.false_eq_true, if_false]
    rcases hres : (runBatches emb.embed
        (batchGroups bs (cs.map Chunk.content))).2 with e | embeddings
    · simp only [hres]
      exact hh
    · simp only [hres]
      by_cases hlen : embeddings.length < cs.length
      · simp only [hlen, if_true]
        exact hh
      · simp only [hlen, if_false]
        obtain ⟨r, hrmem, hrsource, hrhash⟩ := (mem_hashes_by_source _ _ _).mp hh
        rw [mem_hashes_by_source]
        by_cases hrep : ∀ q ∈ (cs.zip embeddings).map
            (fun p => mkRecord p.1 p.2 emb.model_name),
            q.chunk_hash ≠ r.chunk_hash
        · exact ⟨r, (mem_upsert _ _ _).mpr (Or.inl ⟨hrmem, hrep⟩),
            hrsource, hrhash⟩
        · push_neg at hrep
          obtain ⟨q, hqmem, hqhash⟩ := hrep
          refine ⟨q, (mem_upsert _ _ _).mpr (Or.inr hqmem), ?_,
            by rw [hqhash, hrhash]⟩
          obtain ⟨p, hp, rfl⟩ := List.mem_map.mp hqmem
          exact hsrc p.1 (List.of_mem_zip hp).1

/-- A record of the store that is not stale survives the conditional
stale-deletion step of a per-file re-index. -/
lemma mem_ifStaleDelete (st : Store) (stale : List ChunkId) (r : Record)
    (hr : r ∈ st) (hkeep : r.chunk_hash ∉ stale) :
    r ∈ (if stale.isEmpty then st
         else MilvusStore.delete_by_hashes st stale) := by
  by_cases hst : stale.isEmpty
  · rw [if_pos hst]
    exact hr
  · rw [if_neg hst, mem_delete_by_hashes]
    exact ⟨hr, hkeep⟩

/-- After a successful per-file re-index (non-force), every current chunk
identifier is stored for the source: new identifiers were upserted, old
ones were neither stale nor silently lost to the upsert. -/
lemma indexFile_covers (st : Store) (emb : Embedder) (source : String)
    (chunks : List Chunk) (hsrc : ∀ c ∈ chunks, c.source = source)
    (n : Nat) (hok : (indexFile st emb source chunks false).result = .ok n) :
    ∀ c ∈ chunks, chunkId c emb.model_name ∈
      MilvusStore.hashes_by_source
        (indexFile st emb source chunks false).state source := by
  intro c hcmem
  have hchunks : ¬ chunks.isEmpty = true := by
    rw [List.isEmpty_iff]
    intro hnil
    subst hnil
    simp at hcmem
  unfold indexFile at hok ⊢
  simp only [hchunks, Bool.false_eq_true, if_false] at hok ⊢
  set stale := (MilvusStore.hashes_by_source st source).filter
      (fun h => h ∉ chunks.map (fun c => chunkId c emb.model_name))
    with hstale_def
  set st1 := (if stale.isEmpty then st
      else MilvusStore.delete_by_hashes st stale) with hst1_def
  set toEmbed := chunks.filter (fun c =>
      chunkId c emb.model_name ∉ MilvusStore.hashes_by_source st source)
    with hte_def
  have hnotstale : ∀ r : Record, r.chunk_hash = chunkId c emb.model_name →
      r.chunk_hash ∉ stale := by
    intro r hrhash hmem2
    rw [hstale_def] at hmem2
    have h2 := (List.mem_filter.mp hmem2).2
    simp only [decide_eq_true_eq] at h2
    exact h2 (by
      rw [hrhash]
      exact List.mem_map.mpr ⟨c, hcmem, rfl⟩)
  have hold_in_st1 : chunkId c emb.model_name ∈
        MilvusStore.hashes_by_source st source →
      chunkId c emb.model_name ∈ MilvusStore.hashes_by_source st1 source := by
    intro hcold
    obtain ⟨r, hrmem, hrsource, hrhash⟩ := (mem_hashes_by_source _ _ _).mp hcold
    rw [mem_hashes_by_source]
    refine ⟨r, ?_, hrsource, hrhash⟩
    rw [hst1_def]
    exact mem_ifStaleDelete _ _ _ hrmem (hnotstale r hrhash)
  by_cases hte : toEmbed.isEmpty
  · simp only [hte, if_true] at hok ⊢
    have hcold : chunkId c emb.model_name ∈
        MilvusStore.hashes_by_source st source := by
      by_contra hnot
      have hcf : c ∈ toEmbed := by
        rw [hte_def]
        exact List.mem_filter.mpr ⟨hcmem, by simpa using hnot⟩
      rw [List.isEmpty_iff] at hte
      rw [hte] at hcf
      simp at hcf
    exact hold_in_st1 hcold
  · simp only [hte, Bool.false_eq_true, if_false] at hok ⊢
    have hsub : ∀ c2 ∈ toEmbed, c2.source = source := by
      intro c2 hc2
      rw [hte_def] at hc2
      exact hsrc c2 (List.mem_filter.mp hc2).1
    by_cases hcold : chunkId c emb.model_name ∈
        MilvusStore.hashes_by_source st source
    · exact embed_and_store_key_preserved st1 emb toEmbed 96 source hsub _
        (hold_in_st1 hcold)
    · have hcin : c ∈ toEmbed := by
        rw [hte_def]
        exact List.mem_filter.mpr ⟨hcmem, by simpa using hcold⟩
      obtain ⟨r, hrmem, hrhash, hrsource⟩ :=
        embed_and_store_ok st1 emb toEmbed 96 n hok c hcin
      rw [mem_hashes_by_source]
      exact ⟨r, hrmem, by rw [hrsource]; exact hsrc c hcmem, hrhash⟩

lemma ite_delOps_no_upsert (b : Prop) [Decidable b] (hs : List ChunkId) :
    ∀ op ∈ (if b then ([] : List StoreOp) else [StoreOp.deleteByHashes hs]),
      op.isUpsert = false := by
  by_cases hb : b
  · simp [hb]
  · simp [hb, StoreOp.isUpsert]

/-- When every current chunk identifier is already stored for the source,
a non-force re-index returns 0, makes no embedding call, and issues no
upsert. -/
lemma indexFile_no_new (st : Store) (emb : Embedder) (source : String)
    (chunks : List Chunk)
    (hall : ∀ c ∈ chunks, chunkId c emb.model_name ∈
      MilvusStore.hashes_by_source st source) :
    (indexFile st emb source chunks false).result = .ok 0
    ∧ (indexFile st emb source chunks false).embedCalls = []
    ∧ ∀ op ∈ (indexFile st emb source chunks false).ops,
        op.isUpsert = false := by
  unfold indexFile
  by_cases hc : chunks.isEmpty
  · simp only [hc, if_true]
    exact ⟨by simp, by simp, ite_delOps_no_upsert _ _⟩
  · simp only [(by simpa using hc : ¬ chunks.isEmpty = true),
      Bool.false_eq_true, if_false]
    have hte : (chunks.filter (fun c => chunkId c emb.model_name ∉
        MilvusStore.hashes_by_source st source)).isEmpty = true := by
      rw [List.isEmpty_iff]
      rw [List.filter_eq_nil_iff]
      intro c hcm
      simpa using hall c hcm
    simp only [hte, if_true]
    exact ⟨by simp, by simp, ite_delOps_no_upsert _ _⟩

/-- The property of C2: after one successful non-force re-index of a
file's chunks, every identifier the second identical re-index computes is
already stored, so the second run returns 0, makes no embedding call, and
issues no upsert. -/
def IdempotenceSpec (st : Store) (emb : Embedder) (source : String)
    (chunks : List Chunk) : Prop :=
  (∀ c ∈ chunks, chunkId c emb.model_name ∈
      MilvusStore.hashes_by_source
        (indexFile st emb source chunks false).state source)
  ∧ (indexFile (indexFile st emb source chunks false).state
      emb source chunks false).result = .ok 0
  ∧ (indexFile (indexFile st emb source chunks false).state
      emb source chunks false).embedCalls = []
  ∧ ∀ op ∈ (indexFile (indexFile st emb source chunks false).state
      emb source chunks false).ops, op.isUpsert = false

/-- C2: indexing the same unchanged file twice in a row without force
embeds and upserts zero chunks on the second pass (spec §4.1 makes the
chunker deterministic, so the unchanged file yields the same chunk list
both times; the chunks of a file carry its source path). -/
theorem indexFile_idempotent (st : Store) (emb : Embedder) (source : String)
    (chunks : List Chunk) (hsrc : ∀ c ∈ chunks, c.source = source) (n : Nat)
    (hok : (indexFile st emb source chunks false).result = .ok n) :
    IdempotenceSpec st emb source chunks := by
  have hcov := indexFile_covers st emb source chunks hsrc n hok
  obtain ⟨h1, h2, h3⟩ := indexFile_no_new _ emb source chunks hcov
  exact ⟨hcov, h1, h2, h3⟩

/-- Witness for C2: one chunk, indexed into an empty store, then
re-indexed. -/
theorem indexFile_idempotent_witness :
    (∀ c ∈ [(⟨"a.md", "hello", "", 0, 1, 1⟩ : Chunk)], c.source = "a.md")
    ∧ (indexFile [] ⟨"m", fun ts => .ok (ts.map (fun _ => ([] : Vec)))⟩
        "a.md" [⟨"a.md", "hello", "", 0, 1, 1⟩] false).result = .ok 1
    ∧ IdempotenceSpec [] ⟨"m", fun ts => .ok (ts.map (fun _ => ([] : Vec)))⟩
        "a.md" [⟨"a.md", "hello", "", 0, 1, 1⟩] :=
  ⟨by
    intro c hc
    rw [List.mem_singleton] at hc
    subst hc
    rfl,
   rfl,
   indexFile_idempotent _ _ _ _
     (by
       intro c hc
       rw [List.mem_singleton] at hc
       subst hc
       rfl) 1 rfl⟩

lemma chunkId_model (c : Chunk) (m : String) : (chunkId c m).model = m := rfl

/-- When every batch succeeded, the loop called the backend on exactly the
given batches. -/
lemma runBatches_calls_of_ok (embed : List String → Except String (List Vec)) :
    ∀ (gs : List (List String)) (vs : List Vec),
      (runBatches embed gs).2 = .ok vs → (runBatches embed gs).1 = gs := by
  intro gs
  induction gs with
  | nil => intro vs _; rfl
  | cons b bs ih =>
    intro vs h
    rcases hb : embed b with e | vb
    · simp only [runBatches, hb] at h
      exact absurd h (by simp)
    · simp only [runBatches, hb] at h ⊢
      rcases hr : (runBatches embed bs).2 with e2 | rest
      · rw [hr] at h
        simp at h
      · rw [List.cons_inj_right]
        exact ih rest hr

/-- On success, the embed-and-store step passed exactly the chunks'
contents (batched, in order) to the embedding backend. -/
lemma embed_and_store_calls_of_ok (st : Store) (emb : Embedder)
    (cs : List Chunk) (bs : Nat) (n : Nat)
    (hok : (embed_and_store st emb cs bs).result = .ok n) :
    (embed_and_store st emb cs bs).embedCalls.flatten
      = cs.map Chunk.content := by
  unfold embed_and_store at hok ⊢
  by_cases hc : cs.isEmpty
  · rw [List.isEmpty_iff] at hc
    subst hc
    simp
  · simp only [(by simpa using hc : ¬ cs.isEmpty = true),
      Bool.false_eq_true, if_false] at hok ⊢
    rcases hres : (runBatches emb.embed
        (batchGroups bs (cs.map Chunk.content))).2 with e | embeddings
    · simp only [hres] at hok
      exact absurd hok (by simp)
    · simp only [hres] at hok ⊢
      by_cases hlen : embeddings.length < cs.length
      · simp only [hlen, if_true] at hok
        exact absurd hok (by simp)
      · simp only [hlen, if_false] at hok ⊢
        rw [runBatches_calls_of_ok emb.embed _ embeddings hres]
        exact batchGroupsAux_flatten bs _ _ (le_refl _)

/-- The property of C3 for one per-file re-index whose stored identifiers
all carry a different model name: every stored identifier is deleted, the
backend is invoked on every chunk's content, and every chunk's new
identifier ends up stored. -/
def ModelChangeSpec (st : Store) (emb : Embedder) (source : String)
    (chunks : List Chunk) : Prop :=
  (∀ h : ChunkId, h ∈ deletedIds (indexFile st emb source chunks false).ops ↔
      h ∈ MilvusStore.hashes_by_source st source)
  ∧ (indexFile st emb source chunks false).embedCalls.flatten
      = chunks.map Chunk.content
  ∧ ∀ c ∈ chunks, chunkId c emb.model_name ∈
      MilvusStore.hashes_by_source
        (indexFile st emb source chunks false).state source

/-- C3: re-indexing the same unchanged file under a different
embedding-model name re-embeds every chunk: every previously stored
identifier for the source (all carrying the old model name) is stale and
deleted, and every current chunk is embedded and upserted under its new
identifier. -/
theorem indexFile_model_change (st : Store) (emb : Embedder)
    (source : String) (chunks : List Chunk)
    (hsrc : ∀ c ∈ chunks, c.source = source)
    (hmodel : ∀ h ∈ MilvusStore.hashes_by_source st source,
      h.model ≠ emb.model_name)
    (n : Nat) (hok : (indexFile st emb source chunks false).result = .ok n) :
    ModelChangeSpec st emb source chunks := by
  have hnotcur : ∀ h ∈ MilvusStore.hashes_by_source st source,
      h ∉ chunks.map (fun c => chunkId c emb.model_name) := by
    intro h hmem hcur
    obtain ⟨c, _, rfl⟩ := List.mem_map.mp hcur
    exact hmodel _ hmem rfl
  refine ⟨?_, ?_, indexFile_covers st emb source chunks hsrc n hok⟩
  · intro h
    rw [indexFile_deletedIds_iff st emb source chunks false h]
    exact ⟨fun ⟨a, _⟩ => a, fun a => ⟨a, hnotcur h a⟩⟩
  · by_cases hchunks : chunks.isEmpty
    · rw [List.isEmpty_iff] at hchunks
      subst hchunks
      unfold indexFile at hok ⊢
      simp
    · have hteq : chunks.filter (fun c => chunkId c emb.model_name ∉
          MilvusStore.hashes_by_source st source) = chunks := by
        rw [List.filter_eq_self]
        intro c hcm
        simp only [decide_eq_true_eq]
        intro hmem
        exact hmodel _ hmem rfl
      unfold indexFile at hok ⊢
      simp only [(by simpa using hchunks : ¬ chunks.isEmpty = true),
        Bool.false_eq_true, if_false, hteq, hchunks] at hok ⊢
      exact embed_and_store_calls_of_ok _ emb chunks 96 n hok

/-- Witness for C3: a store holding one record under model m1, re-indexed
under model m2. -/
theorem indexFile_model_change_witness :
    (∀ c ∈ [(⟨"a.md", "hello", "", 0, 1, 1⟩ : Chunk)], c.source = "a.md")
    ∧ (∀ h ∈ MilvusStore.hashes_by_source
        [mkRecord ⟨"a.md", "hello", "", 0, 1, 1⟩ [] "m1"] "a.md",
        h.model ≠ "m2")
    ∧ (indexFile [mkRecord ⟨"a.md", "hello", "", 0, 1, 1⟩ [] "m1"]
        ⟨"m2", fun ts => .ok (ts.map (fun _ => ([] : Vec)))⟩ "a.md"
        [⟨"a.md", "hello", "", 0, 1, 1⟩] false).result = .ok 1
    ∧ ModelChangeSpec [mkRecord ⟨"a.md", "hello", "", 0, 1, 1⟩ [] "m1"]
        ⟨"m2", fun ts => .ok (ts.map (fun _ => ([] : Vec)))⟩ "a.md"
        [⟨"a.md", "hello", "", 0, 1, 1⟩] :=
  ⟨by
    intro c hc
    rw [List.mem_singleton] at hc
    subst hc
    rfl,
   by decide,
   rfl,
   indexFile_model_change _ _ _ _
     (by
       intro c hc
       rw [List.mem_singleton] at hc
       subst hc
       rfl)
     (by decide) 1 rfl⟩

/-! ## Watcher lemmas (C10) -/

lemma removeKey_keys_not_mem {α : Type} (k : String) (l : List (String × α)) :
    k ∉ (removeKey k l).map Prod.fst := by
  simp only [removeKey, List.mem_map]
  rintro ⟨q, hq, rfl⟩
  have := (List.mem_filter.mp hq).2
  simp at this

lemma removeKey_nodup {α : Type} (k : String) (l : List (String × α))
    (h : (l.map Prod.fst).Nodup) : ((removeKey k l).map Prod.fst).Nodup :=
  h.sublist (List.Sublist.map Prod.fst (List.filter_sublist l))

lemma setKey_nodup {α : Type} (k : String) (v : α) (l : List (String × α))
    (h : (l.map Prod.fst).Nodup) : ((setKey k v l).map Prod.fst).Nodup := by
  rw [setKey, List.map_cons]
  exact List.nodup_cons.mpr ⟨removeKey_keys_not_mem k l, removeKey_nodup k l h⟩

lemma schedule_wf (d t : Nat) (ev p : String) (s : WatchState)
    (h : WatchWF s) : WatchWF (schedule d t ev p s) :=
  ⟨setKey_nodup _ _ _ h.1, setKey_nodup _ _ _ h.2⟩

lemma fire_wf (p : String) (s : WatchState) (h : WatchWF s) :
    WatchWF (fire p s) := by
  unfold fire
  rcases lookupKey p s.pending with _ | kind
  · exact ⟨removeKey_nodup _ _ h.1, removeKey_nodup _ _ h.2⟩
  · exact ⟨removeKey_nodup _ _ h.1, removeKey_nodup _ _ h.2⟩

lemma foldl_fire_wf : ∀ (ps : List String) (s : WatchState), WatchWF s →
    WatchWF (ps.foldl (fun st p => fire p st) s) := by
  intro ps
  induction ps with
  | nil => intro s h; exact h
  | cons p ps ih =>
    intro s h
    exact ih (fire p s) (fire_wf p s h)

lemma fireDue_wf (t : Nat) (s : WatchState) (h : WatchWF s) :
    WatchWF (fireDue t s) :=
  foldl_fire_wf _ s h

lemma drain_wf (s : WatchState) (h : WatchWF s) : WatchWF (drain s) :=
  foldl_fire_wf _ s h

lemma runEvents_wf (d : Nat) :
    ∀ (evs : List (Nat × String × String)) (s : WatchState), WatchWF s →
      WatchWF (runEvents d evs s) := by
  intro evs
  induction evs with
  | nil => intro s h; exact drain_wf s h
  | cons e evs ih =>
    intro s h
    exact ih _ (schedule_wf _ _ _ _ _ (fireDue_wf _ _ h))

lemma nodup_filter_key_length {α : Type} (l : List (String × α)) (p : String)
    (h : (l.map Prod.fst).Nodup) :
    (l.filter (fun q => q.1 = p)).length ≤ 1 := by
  induction l with
  | nil => simp
  | cons x xs ih =>
    rw [List.map_cons, List.nodup_cons] at h
    by_cases hx : x.1 = p
    · rw [List.filter_cons_of_pos (by simp [hx])]
      have hnil : xs.filter (fun q => q.1 = p) = [] := by
        rw [List.filter_eq_nil_iff]
        intro q hq
        simp only [decide_eq_true_eq]
        intro hq1
        exact h.1 (by
          rw [hx, ← hq1]
          exact List.mem_map_of_mem Prod.fst hq)
      simp [hnil]
    · rw [List.filter_cons_of_neg (by simp [hx])]
      exact ih h.2

lemma schedule_timer_unique (d t : Nat) (ev p : String) (s : WatchState) :
    (schedule d t ev p s).timers.filter (fun q => q.1 = p) = [(p, t + d)] := by
  simp only [schedule, setKey]
  rw [List.filter_cons_of_pos (by simp)]
  have hnil : (removeKey p s.timers).filter (fun q => q.1 = p) = [] := by
    rw [List.filter_eq_nil_iff]
    intro q hq
    have := (List.mem_filter.mp hq).2
    simpa using this
  rw [hnil]

lemma lookupKey_setKey {α : Type} (k : String) (v : α) (l : List (String × α)) :
    lookupKey k (setKey k v l) = some v := by
  simp [setKey, lookupKey]

/-- The property of C10: well-formedness (at most one timer entry and one
pending entry per path) gives at most one pending timer per path and is
preserved by every transition; a new event for a path cancels the old
timer (afterwards the path has exactly one timer, the fresh one) and
overwrites the recorded kind; and the concrete burst — three modification
events 100 ms apart under a 1500 ms debounce — produces exactly one
callback carrying the last event's kind. -/
def DebounceSpec : Prop :=
  (∀ s : WatchState, WatchWF s →
      ∀ p, (s.timers.filter (fun q => q.1 = p)).length ≤ 1)
  ∧ (∀ (s : WatchState) (d t : Nat) (ev p : String), WatchWF s →
      WatchWF (schedule d t ev p s)
      ∧ (schedule d t ev p s).timers.filter (fun q => q.1 = p) = [(p, t + d)]
      ∧ lookupKey p (schedule d t ev p s).pending = some ev)
  ∧ (∀ (s : WatchState) (p : String), WatchWF s → WatchWF (fire p s))
  ∧ (∀ (d : Nat) (evs : List (Nat × String × String)) (s : WatchState),
      WatchWF s → WatchWF (runEvents d evs s))
  ∧ (runEvents 1500
      [(0, "modified", "a.md"), (100, "modified", "a.md"),
       (200, "modified", "a.md")] ⟨[], [], []⟩).fired
      = [("a.md", "modified")]

/-- C10: the debounced watcher keeps at most one pending timer per path;
a new event for a pending path cancels the old timer, overwrites the
recorded kind, and starts a fresh timer; three modification events 100 ms
apart under a 1500 ms debounce yield exactly one callback with the last
kind. -/
theorem watcher_debounce : DebounceSpec := by
  refine ⟨?_, ?_, fun s p => fire_wf p s, runEvents_wf, rfl⟩
  · intro s hs p
    exact nodup_filter_key_length s.timers p hs.1
  · intro s d t ev p hs
    exact ⟨schedule_wf d t ev p s hs, schedule_timer_unique d t ev p s,
      lookupKey_setKey p ev s.pending⟩

/-- Witness for C10: the empty handler state is well-formed, and
scheduling one event on it yields exactly one timer and the recorded
kind. -/
theorem watcher_debounce_witness :
    WatchWF ⟨[], [], []⟩ ∧
      (WatchWF (schedule 1500 0 "modified" "a.md" ⟨[], [], []⟩)
        ∧ (schedule 1500 0 "modified" "a.md" ⟨[], [], []⟩).timers.filter
            (fun q => q.1 = "a.md") = [("a.md", 0 + 1500)]
        ∧ lookupKey "a.md"
            (schedule 1500 0 "modified" "a.md" ⟨[], [], []⟩).pending
          = some "modified") :=
  ⟨⟨List.nodup_nil, List.nodup_nil⟩,
   watcher_debounce.2.1 ⟨[], [], []⟩ 1500 0 "modified" "a.md"
     ⟨List.nodup_nil, List.nodup_nil⟩⟩
